/-
Verification of py-llll (llll.py), a LINQ-like list-processing library.

Shallow embedding conventions:
* Finite Python iterables are embedded as `List`.
* Python's stable `list.sort(key=...)` is embedded as `List.mergeSort`
  (a stable sort) applied to the key comparison; tuple keys are compared
  with the lexicographic comparison `tupleLe`, exactly how Python compares
  tuples.
* The private identity-checked sentinel object used by the strict forms
  (`first`, `single`, `element_at`) is embedded by the dedicated
  constructor `PyVal.marker`, which is distinct from every source element
  `PyVal.elem a` by construction — just as the fresh sentinel list is
  distinct, by identity, from every element of the scanned sequence.
* Raising an exception is embedded as returning `Except.error` with the
  message built by the source.
* Python dicts (which preserve insertion order) are embedded as
  association lists: inserting a fresh key appends at the end, updating an
  existing key rewrites its entry in place.
-/
import Mathlib

namespace Llll

universe u v w

/-- A Python runtime value as seen by the sentinel protocol: either a
legitimate element `elem a` or the library's private presence marker.
Constructor distinctness models Python's `is` check against the fresh
sentinel object. -/
inductive PyVal (α : Type u) where
  | elem (a : α)
  | marker
deriving DecidableEq

/-- Whether an `Except` value is an error (a raised exception). -/
def isError {ε : Type u} {α : Type v} : Except ε α → Bool
  | .error _ => true
  | .ok _ => false

/-- `class OrderedSequence`: the lazily-sorted view produced by `order_by`,
holding the underlying source and the key-extraction function. -/
structure OrderedSequence (α : Type u) (κ : Type v) where
  xs : List α
  key_from_x : α → κ

/-- Python's stable `xsd.sort(key=key)` under the (total, reflexive)
Boolean comparison `le` on keys: a stable merge sort comparing extracted
keys. -/
def sortByKey {α : Type u} {κ : Type v} (le : κ → κ → Bool) (key : α → κ)
    (xs : List α) : List α :=
  xs.mergeSort (fun a b => le (key a) (key b))

/-- `OrderedSequence.__iter__`: copy the source into a concrete list and
stable-sort it by the stored key function, comparing keys with `le`. -/
def OrderedSequence.iter {α : Type u} {κ : Type v}
    (os : OrderedSequence α κ) (le : κ → κ → Bool) : List α :=
  sortByKey le os.key_from_x os.xs

/-- The comparison Python's sort effectively uses on keys of a linearly
ordered type (`not (b < a)`, i.e. `a ≤ b`). -/
def keyLe {κ : Type v} [LinearOrder κ] : κ → κ → Bool :=
  fun a b => decide (a ≤ b)

/-- Python's lexicographic comparison of pairs, as the sort's effective
`≤`: `a ≤ b` iff `a.1 < b.1`, or `a.1 = b.1` and `a.2 ≤ b.2`. -/
def tupleLe {κ₁ : Type u} {κ₂ : Type v} [LinearOrder κ₁] [LinearOrder κ₂] :
    κ₁ × κ₂ → κ₁ × κ₂ → Bool :=
  fun a b => decide (a.1 < b.1) || (decide (a.1 = b.1) && decide (a.2 ≤ b.2))

/-- `order_by(xs, key_from_x)`: build the ordered view (no sorting yet). -/
def order_by {α : Type u} {κ : Type v} (xs : List α) (key_from_x : α → κ) :
    OrderedSequence α κ :=
  ⟨xs, key_from_x⟩

/-- A Python value reaching `then_by`: either an `OrderedSequence`
(the only accepted input) or any other sequence. -/
inductive SeqVal (α : Type u) (κ : Type v) where
  | ordered (os : OrderedSequence α κ)
  | plain (xs : List α)

/-- `then_by(ordered_xs, key_from_x)`: if the input is an ordered view,
return a new ordered view over the same underlying source whose key
function pairs the previous composite key with the new key; otherwise
raise `ValueError` at once. -/
def then_by {α : Type u} {κ : Type v} {κ₂ : Type w}
    (v : SeqVal α κ) (key_from_x : α → κ₂) :
    Except String (OrderedSequence α (κ × κ₂)) :=
  match v with
  | .ordered os => .ok ⟨os.xs, fun x => (os.key_from_x x, key_from_x x)⟩
  | .plain _ => .error "Sequence must be sorted with order_by"

/-- `where(xs, predicate)`: the lazy filter operator. -/
def whereOp {α : Type u} (p : α → Bool) (xs : List α) : List α :=
  xs.filter p

/-- `first_or_default(xs, default_value, predicate)`: scan front-to-back
and return the first element satisfying the predicate, or the default if
the scan finds none. -/
def first_or_default {α : Type u} (xs : List α) (default_value : α)
    (p : α → Bool) : α :=
  match xs with
  | [] => default_value
  | x :: rest => if p x then x else first_or_default rest default_value p

/-- Lift a predicate on elements to `PyVal`s; the marker is never an
element of a scanned source, so its value is irrelevant. -/
def liftP {α : Type u} (p : α → Bool) : PyVal α → Bool
  | .elem a => p a
  | .marker => false

/-- `first(xs, predicate)`: call `first_or_default` with the private
marker as default and fail if the marker itself comes back. -/
def first {α : Type u} (xs : List α) (p : α → Bool) : Except String α :=
  match first_or_default (xs.map PyVal.elem) PyVal.marker (liftP p) with
  | .marker => .error "Sequence must contain some element"
  | .elem a => .ok a

/-- The scanning loop of `single_or_default`: remember the single value
seen so far (`none` models `the_value is sentinel`) and raise as soon as
a second one shows up. -/
def single_scan {α : Type u} : List α → Option α → Except String (Option α)
  | [], the_value => .ok the_value
  | _ :: _, some _ => .error "Sequence must contain only one element"
  | y :: rest, none => single_scan rest (some y)

/-- `single_or_default(xs, default_value, predicate)`: the filtered source
must contain at most one element; return it, or the default when there is
none; two or more raise even in this permissive form. -/
def single_or_default {α : Type u} (xs : List α) (default_value : α)
    (p : α → Bool) : Except String α :=
  match single_scan (whereOp p xs) none with
  | .error e => .error e
  | .ok none => .ok default_value
  | .ok (some v) => .ok v

/-- `single(xs, predicate)`: call `single_or_default` with the private
marker as default and fail if the marker itself comes back. -/
def single {α : Type u} (xs : List α) (p : α → Bool) : Except String α :=
  match single_or_default (xs.map PyVal.elem) PyVal.marker (liftP p) with
  | .error e => .error e
  | .ok .marker => .error "Sequence must contain only one element"
  | .ok (.elem a) => .ok a

/-- The counting loop of `element_at_or_default`, with the running
counter `i` made explicit (it starts at 0 and only grows). -/
def element_at_from {α : Type u} (xs : List α) (index : Int)
    (default_value : α) (i : Int) : α :=
  match xs with
  | [] => default_value
  | x :: rest =>
    if i = index then x else element_at_from rest index default_value (i + 1)

/-- `element_at_or_default(xs, index, default_value)`: return the element
whose 0-based position equals `index`, or the default if the scan ends
first. -/
def element_at_or_default {α : Type u} (xs : List α) (index : Int)
    (default_value : α) : α :=
  element_at_from xs index default_value 0

/-- `element_at(xs, index)`: call `element_at_or_default` with the
private marker as default and fail with the out-of-range message if the
marker itself comes back. -/
def element_at {α : Type u} (xs : List α) (index : Int) : Except String α :=
  match element_at_or_default (xs.map PyVal.elem) index PyVal.marker with
  | .marker => .error ("Index " ++ toString index ++ " is out of range")
  | .elem a => .ok a

/-- The building loop of `to_dict`, with the dictionary built so far made
explicit.  On a duplicate key the raised error carries the duplicate key,
the offending element, and the entries inserted up to that point (the
dictionary's state when the exception is raised). -/
def to_dictAux {α : Type u} {κ : Type v} {β : Type w} [DecidableEq κ]
    (key_from_x : α → κ) (value_from_x : α → β) :
    List α → List (κ × β) → Except (κ × α × List (κ × β)) (List (κ × β))
  | [], d => .ok d
  | x :: rest, d =>
    let k := key_from_x x
    let v := value_from_x x
    if k ∈ d.map Prod.fst then .error (k, x, d)
    else to_dictAux key_from_x value_from_x rest (d ++ [(k, v)])

/-- `to_dict(xs, key_from_x, value_from_x)`: scan once, inserting
`(key, value)` pairs; a key already present raises at that element. -/
def to_dict {α : Type u} {κ : Type v} {β : Type w} [DecidableEq κ]
    (xs : List α) (key_from_x : α → κ) (value_from_x : α → β) :
    Except (κ × α × List (κ × β)) (List (κ × β)) :=
  to_dictAux key_from_x value_from_x xs []

/-- One iteration of the `to_lookup` loop: append the value to the entry
of an already-present key (in place, keeping the key's position), or add
a new `key ↦ [value]` entry at the end (Python dicts keep insertion
order). -/
def lookupStep {α : Type u} {κ : Type v} {β : Type w} [DecidableEq κ]
    (key_from_x : α → κ) (value_from_x : α → β)
    (d : List (κ × List β)) (x : α) : List (κ × List β) :=
  let k := key_from_x x
  let v := value_from_x x
  if k ∈ d.map Prod.fst then
    d.map (fun e => if e.1 = k then (e.1, e.2 ++ [v]) else e)
  else d ++ [(k, [v])]

/-- `to_lookup(xs, key_from_x, value_from_x)`: group the source into an
insertion-ordered one-to-many map, never failing on repeated keys. -/
def to_lookup {α : Type u} {κ : Type v} {β : Type w} [DecidableEq κ]
    (xs : List α) (key_from_x : α → κ) (value_from_x : α → β) :
    List (κ × List β) :=
  xs.foldl (lookupStep key_from_x value_from_x) []

/-- Look a key up in an association list (Python's `d[k]`). -/
def lookupKey {κ : Type v} {γ : Type w} [DecidableEq κ] :
    List (κ × γ) → κ → Option γ
  | [], _ => none
  | e :: rest, k => if e.1 = k then some e.2 else lookupKey rest k

/-- The `to_lookup` loop instrumented with call traces: the second and
third components list, in order, the arguments of the successive
`key_from_x` and `value_from_x` calls the loop performs (one `k = key(x)`
and one `v = value(x)` per iteration). -/
def to_lookupTrace {α : Type u} {κ : Type v} {β : Type w} [DecidableEq κ]
    (key_from_x : α → κ) (value_from_x : α → β) :
    List α → List (κ × List β) → List (κ × List β) × List α × List α
  | [], d => (d, [], [])
  | x :: rest, d =>
    let k := key_from_x x
    let v := value_from_x x
    let d2 := if k ∈ d.map Prod.fst then
        d.map (fun e => if e.1 = k then (e.1, e.2 ++ [v]) else e)
      else d ++ [(k, [v])]
    let r := to_lookupTrace key_from_x value_from_x rest d2
    (r.1, x :: r.2.1, x :: r.2.2)

/-- The scanning loop of `distinct`, with the set of already-yielded
values (`yielded_table`) made explicit as a list. -/
def distinctAux {α : Type u} [DecidableEq α] : List α → List α → List α
  | [], _ => []
  | x :: rest, yielded =>
    if x ∈ yielded then distinctAux rest yielded
    else x :: distinctAux rest (x :: yielded)

/-- `distinct(xs)`: yield each value the first time it is seen, silently
dropping later duplicates. -/
def distinct {α : Type u} [DecidableEq α] (xs : List α) : List α :=
  distinctAux xs []

/-- The first occurrence of each distinct value, in order of first
occurrence: the reference description of what `distinct` yields. -/
def firstOccurrences {α : Type u} [DecidableEq α] : List α → List α
  | [] => []
  | x :: rest => x :: firstOccurrences (rest.filter fun y => decide (y ≠ x))
termination_by l => l.length
decreasing_by
  exact Nat.lt_succ_of_le (List.length_filter_le _ _)

/-- `repeat(x)` with no count: the unbounded producer that yields `x`
forever, embedded as the total stream of its outputs. -/
def repeatForever {α : Type u} (x : α) : Nat → α := fun _ => x

/-- `take(xs, n)` applied to an unbounded producer: pull elements while
fewer than `n` have been yielded, then stop.  Structural recursion on `n`
is the embedding of the fact that the loop terminates after finitely many
pulls even though the producer is infinite. -/
def take {α : Type u} (n : Nat) (s : Nat → α) : List α :=
  match n with
  | 0 => []
  | m + 1 => s 0 :: take m (fun i => s (i + 1))

/-- `to_tuple(xs)`: materialize a (finite) sequence. -/
def to_tuple {α : Type u} (xs : List α) : List α := xs

/-! ### The presence protocol: `first` and `first_or_default` -/

/-- The scan of `first_or_default` returns the first match when there is
one, and otherwise the supplied default. -/
theorem first_or_default_eq_find {α : Type u} (xs : List α) (d : α)
    (p : α → Bool) :
    first_or_default xs d p = (xs.find? p).getD d := by
  induction xs with
  | nil => rfl
  | cons x rest ih =>
    by_cases hx : p x
    · simp [first_or_default, hx, List.find?_cons]
    · simp [first_or_default, hx, List.find?_cons, ih]

/-- Running `first_or_default` with the private marker as default over a
source of legitimate elements returns the (tagged) first match, or the
marker when there is none. -/
theorem first_or_default_marker {α : Type u} (ys : List α) (q : α → Bool) :
    first_or_default (ys.map PyVal.elem) PyVal.marker (liftP q)
      = match ys.find? q with
        | some y => PyVal.elem y
        | none => PyVal.marker := by
  induction ys with
  | nil => rfl
  | cons y rest ih =>
    by_cases hy : q y
    · simp [first_or_default, liftP, hy, List.find?_cons]
    · simp [first_or_default, liftP, hy, List.find?_cons, ih]

/-- Claim C2, counterexample to the statement as written: with source
`[0]`, default `0` and the always-true predicate, `first_or_default`
returns the element `0`, which equals the caller's default, even though
an element of the source does satisfy the predicate — so "returns `D` if
and only if no element satisfies `p`" fails in the "only if" direction. -/
theorem first_presence_counterexample :
    ¬ (∀ (xs : List Nat) (d : Nat) (p : Nat → Bool),
        first_or_default xs d p = d ↔ ∀ x ∈ xs, p x = false) := by
  intro h
  have h0 := (h [0] 0 (fun _ => true)).mp rfl 0 (by simp)
  simp at h0

/-- Claim C2 (amended): `first_or_default(s, D)` returns `D` whenever no
element satisfies the predicate, and otherwise returns the first
satisfying element (which may coincidentally equal `D`); strict `first`
raises its "sequence must contain some element" failure exactly when
`first_or_default` called with the private marker as default returns the
marker, which happens exactly when no element satisfies the predicate —
the marker check is by identity (constructor distinctness here), so a
legitimate element equal to a caller's default is never mistaken for
"not found". -/
theorem first_presence_spec {α : Type u} {β : Type v} (xs : List α) (d : α)
    (p : α → Bool) (ys : List β) (q : β → Bool) :
    ((∀ x ∈ xs, p x = false) → first_or_default xs d p = d)
    ∧ (∀ y, xs.find? p = some y → first_or_default xs d p = y)
    ∧ (isError (first ys q) = true ↔
        first_or_default (ys.map PyVal.elem) PyVal.marker (liftP q)
          = PyVal.marker)
    ∧ (isError (first ys q) = true ↔ ∀ y ∈ ys, q y = false) := by
  have hmain : isError (first ys q) = true ↔ ys.find? q = none := by
    rcases hfind : ys.find? q with _ | y
    · simp [first, first_or_default_marker, hfind, isError]
    · simp [first, first_or_default_marker, hfind, isError]
  refine ⟨?_, ?_, ?_, ?_⟩
  · intro h
    rw [first_or_default_eq_find]
    have hnone : xs.find? p = none := by
      rw [List.find?_eq_none]
      intro a ha
      simp [h a ha]
    simp [hnone]
  · intro y hy
    rw [first_or_default_eq_find, hy]
    rfl
  · rw [hmain, first_or_default_marker]
    rcases hfind : ys.find? q with _ | y <;> simp [hfind]
  · rw [hmain, List.find?_eq_none]
    simp

/-- Witness for the amended claim C2 at a concrete input. -/
theorem first_presence_witness :
    first_or_default [(2 : Nat)] 9 (fun x => decide (x = 3)) = 9 :=
  (first_presence_spec [(2 : Nat)] 9 (fun x => decide (x = 3))
    ([] : List Nat) (fun _ => true)).1 (by decide)

/-! ### `single` and `single_or_default` (Claim C4) -/

/-- The scanning loop of `single_or_default` classified by the shape of
the filtered source: empty keeps the sentinel, a singleton keeps its
element, two or more raise. -/
theorem single_scan_none {α : Type u} (ys : List α) :
    single_scan ys none =
      match ys with
      | [] => .ok none
      | [y] => .ok (some y)
      | _ :: _ :: _ => .error "Sequence must contain only one element" := by
  rcases ys with _ | ⟨y, _ | ⟨z, rest⟩⟩ <;> rfl

/-- Filtering the tagged source with the lifted predicate is tagging the
filtered source. -/
theorem filter_liftP {α : Type u} (ys : List α) (q : α → Bool) :
    (ys.map PyVal.elem).filter (liftP q) = (ys.filter q).map PyVal.elem := by
  rw [List.filter_map]
  rfl

/-- Claim C4: permissive `single_or_default` returns the unique
predicate-satisfying element when there is exactly one, returns the
default when there is none, and raises when there are two or more — the
multiple case fails even in the permissive form; strict `single` returns
the unique match and fails in both the zero and the multiple case. -/
theorem single_cardinality_spec {α : Type u} {β : Type v} (xs : List α)
    (d : α) (p : α → Bool) (ys : List β) (q : β → Bool) :
    (xs.filter p = [] → single_or_default xs d p = .ok d)
    ∧ (∀ x, xs.filter p = [x] → single_or_default xs d p = .ok x)
    ∧ (2 ≤ (xs.filter p).length →
        single_or_default xs d p
          = .error "Sequence must contain only one element")
    ∧ (∀ y, ys.filter q = [y] → single ys q = .ok y)
    ∧ ((ys.filter q).length ≠ 1 → isError (single ys q) = true) := by
  refine ⟨?_, ?_, ?_, ?_, ?_⟩
  · intro hf
    simp [single_or_default, whereOp, hf, single_scan]
  · intro x hf
    simp [single_or_default, whereOp, hf, single_scan]
  · intro hlen
    rcases hf : xs.filter p with _ | ⟨a, _ | ⟨b, t⟩⟩
    · rw [hf] at hlen; simp at hlen
    · rw [hf] at hlen; simp at hlen
    · simp [single_or_default, whereOp, hf, single_scan]
  · intro y hf
    simp [single, single_or_default, whereOp, filter_liftP, hf, single_scan]
  · intro hlen
    rcases hf : ys.filter q with _ | ⟨a, _ | ⟨b, t⟩⟩
    · simp [single, single_or_default, whereOp, filter_liftP, hf,
        single_scan, isError]
    · rw [hf] at hlen; simp at hlen
    · simp [single, single_or_default, whereOp, filter_liftP, hf,
        single_scan, isError]

/-- Witness for claim C4 at concrete inputs. -/
theorem single_cardinality_witness :
    single_or_default [(1 : Nat), 9, 1] 7 (fun x => decide (1 < x)) = .ok 9 :=
  (single_cardinality_spec [(1 : Nat), 9, 1] 7 (fun x => decide (1 < x))
    ([] : List Nat) (fun _ => true)).2.1 9 (by decide)

/-! ### `order_by`: permutation, sortedness, stability (Claim C3) -/

/-- Key comparison through `keyLe` is transitive. -/
theorem keyLe_comp_trans {α : Type u} {κ : Type v} [LinearOrder κ]
    (k : α → κ) :
    ∀ (a b c : α), keyLe (k a) (k b) → keyLe (k b) (k c) →
      keyLe (k a) (k c) := by
  intro a b c hab hbc
  simp only [keyLe, decide_eq_true_eq] at *
  exact le_trans hab hbc

/-- Key comparison through `keyLe` is total. -/
theorem keyLe_comp_total {α : Type u} {κ : Type v} [LinearOrder κ]
    (k : α → κ) :
    ∀ (a b : α), keyLe (k a) (k b) || keyLe (k b) (k a) := by
  intro a b
  simp only [keyLe, Bool.or_eq_true, decide_eq_true_eq]
  exact le_total _ _

/-- Stability of the embedded stable sort, in filter form: the
subsequence of elements drawn from any class of mutually `le`-equivalent
elements is unchanged by sorting. -/
theorem mergeSort_filter_stable {α : Type u} {le : α → α → Bool}
    (htrans : ∀ a b c, le a b → le b c → le a c)
    (htotal : ∀ a b, le a b || le b a)
    {P : α → Bool} (hP : ∀ a b, P a → P b → le a b) (l : List α) :
    (l.mergeSort le).filter P = l.filter P := by
  have hpair : (l.filter P).Pairwise (fun a b => le a b) :=
    List.pairwise_of_forall_mem_list (fun a ha b hb =>
      hP a b (List.mem_filter.mp ha).2 (List.mem_filter.mp hb).2)
  have h3 : List.Sublist (l.filter P) (l.mergeSort le) :=
    List.sublist_mergeSort htrans htotal hpair (List.filter_sublist l)
  have hidem : (l.filter P).filter P = l.filter P := by
    rw [List.filter_filter]
    simp
  have h5 : List.Sublist (l.filter P) ((l.mergeSort le).filter P) := by
    have h := h3.filter P
    rwa [hidem] at h
  have h6 : List.Perm ((l.mergeSort le).filter P) (l.filter P) :=
    (List.mergeSort_perm l le).filter P
  exact (h5.eq_of_length h6.length_eq.symm).symm

/-- Claim C3: iterating `order_by(s, k)` yields a permutation of `s`
whose extracted keys are non-decreasing, and the sort is stable — for
every key value, the elements with that key appear in exactly their
original relative order. -/
theorem order_by_spec {α : Type u} {κ : Type v} [LinearOrder κ]
    (s : List α) (k : α → κ) :
    ((order_by s k).iter keyLe).Perm s
    ∧ (((order_by s k).iter keyLe).map k).Pairwise (· ≤ ·)
    ∧ ∀ v : κ, ((order_by s k).iter keyLe).filter (fun x => decide (k x = v))
        = s.filter (fun x => decide (k x = v)) := by
  refine ⟨List.mergeSort_perm s _, ?_, ?_⟩
  · have h := List.sorted_mergeSort
      (keyLe_comp_trans k) (keyLe_comp_total k) s
    exact h.map k (fun a b hab => by
      simpa only [keyLe, decide_eq_true_eq] using hab)
  · intro v
    exact mergeSort_filter_stable (keyLe_comp_trans k) (keyLe_comp_total k)
      (fun a b ha hb => by
        simp only [decide_eq_true_eq] at ha hb
        simp [keyLe, ha, hb]) s

/-! ### `then_by` composition (Claim C1) -/

/-- The embedded tuple comparison agrees with the lexicographic order on
pairs. -/
theorem tupleLe_eq_lex {κ₁ : Type u} {κ₂ : Type v} [LinearOrder κ₁]
    [LinearOrder κ₂] (a b : κ₁ × κ₂) :
    tupleLe a b = decide (toLex a ≤ toLex b) := by
  calc tupleLe a b
      = decide (a.1 < b.1 ∨ a.1 = b.1 ∧ a.2 ≤ b.2) := by
        simp [tupleLe]
    _ = decide (toLex a ≤ toLex b) :=
        decide_eq_decide.mpr (Prod.Lex.le_iff a b).symm

/-- Claim C1: `order_by(s, k1) | then_by(k2)` is the ordered view over
the same source `s` with the composite key `x ↦ (k1 x, k2 x)`, so
iterating it is exactly stable-sorting `s` by that composite key under
the lexicographic tuple comparison; and a `then_by` applied to any
ordered view (hence to any chain of previous `then_by` calls) nests the
previous composite key as the first tuple component over the same
original source. -/
theorem then_by_composition_spec {α : Type u} {κ₀ κ₁ κ₂ : Type v}
    [LinearOrder κ₁] [LinearOrder κ₂] (s : List α) (k1 : α → κ₁)
    (k2 : α → κ₂) (os : OrderedSequence α κ₀) {κ₃ : Type w} (k3 : α → κ₃) :
    then_by (SeqVal.ordered (order_by s k1)) k2
        = .ok (order_by s (fun x => (k1 x, k2 x)))
    ∧ (∀ os2, then_by (SeqVal.ordered (order_by s k1)) k2 = .ok os2 →
        os2.iter tupleLe = sortByKey tupleLe (fun x => (k1 x, k2 x)) s)
    ∧ sortByKey tupleLe (fun x => (k1 x, k2 x)) s
        = sortByKey (fun a b => decide (toLex a ≤ toLex b))
            (fun x => (k1 x, k2 x)) s
    ∧ then_by (SeqVal.ordered os) k3
        = .ok ⟨os.xs, fun x => (os.key_from_x x, k3 x)⟩ := by
  refine ⟨rfl, ?_, ?_, rfl⟩
  · intro os2 h
    obtain rfl : (⟨s, fun x => (k1 x, k2 x)⟩ :
        OrderedSequence α (κ₁ × κ₂)) = os2 := by
      simpa [then_by, order_by] using h
    rfl
  · unfold sortByKey
    congr 1
    funext a b
    rw [tupleLe_eq_lex]

/-- Witness for claim C1: the composed view over a concrete source
iterates as the direct composite-key sort. -/
theorem then_by_composition_witness :
    OrderedSequence.iter
        (⟨[2, 1, 3], fun n : Nat => (n % 2, n)⟩ :
          OrderedSequence Nat (Nat × Nat)) tupleLe
      = sortByKey tupleLe (fun n : Nat => (n % 2, n)) [2, 1, 3] :=
  (then_by_composition_spec [2, 1, 3] (fun n : Nat => n % 2) (fun n => n)
    (order_by [2, 1, 3] (fun n : Nat => n % 2)) (fun n => n)).2.1
    ⟨[2, 1, 3], fun n => (n % 2, n)⟩ rfl

/-! ### `then_by` misuse (Claim C5) -/

/-- Claim C5: `then_by` applied to anything that is not an ordered view
raises the "must be sorted with order_by" usage error at the point the
operation is attached — the error is produced by `then_by` itself, no
iteration of any result is involved — while `then_by` applied to an
ordered view always succeeds at attachment time. -/
theorem then_by_misuse_spec {α : Type u} {κ : Type v} {κ₂ κ₃ : Type w}
    (xs : List α) (k2 : α → κ₂) (os : OrderedSequence α κ) (k3 : α → κ₃) :
    then_by (SeqVal.plain xs : SeqVal α κ) k2
        = .error "Sequence must be sorted with order_by"
    ∧ ∃ os2, then_by (SeqVal.ordered os) k3 = .ok os2 :=
  ⟨rfl, _, rfl⟩

/-! ### `distinct` (Claim C9) -/

/-- Membership is unchanged by keeping only first occurrences. -/
theorem firstOccurrences_mem {α : Type u} [DecidableEq α] :
    ∀ (l : List α) (a : α), a ∈ firstOccurrences l ↔ a ∈ l
  | [], a => by simp [firstOccurrences]
  | x :: rest, a => by
    simp only [firstOccurrences]
    constructor
    · intro h
      rcases List.mem_cons.mp h with h | h
      · simp [h]
      · have h2 := (firstOccurrences_mem
          (rest.filter fun y => decide (y ≠ x)) a).mp h
        exact List.mem_cons_of_mem _ (List.mem_filter.mp h2).1
    · intro h
      by_cases hax : a = x
      · simp [hax]
      · rcases List.mem_cons.mp h with h | h
        · exact absurd h hax
        · refine List.mem_cons_of_mem _ ?_
          exact (firstOccurrences_mem _ a).mpr
            (List.mem_filter.mpr ⟨h, by simp [hax]⟩)
termination_by l _ => l.length
decreasing_by
  all_goals exact Nat.lt_succ_of_le (List.length_filter_le _ _)

/-- Keeping only first occurrences leaves no duplicates. -/
theorem firstOccurrences_nodup {α : Type u} [DecidableEq α] :
    ∀ l : List α, (firstOccurrences l).Nodup
  | [] => by simp [firstOccurrences]
  | x :: rest => by
    simp only [firstOccurrences, List.nodup_cons]
    refine ⟨?_, firstOccurrences_nodup _⟩
    intro hmem
    have h2 := (firstOccurrences_mem _ x).mp hmem
    simp at h2
termination_by l => l.length
decreasing_by
  all_goals exact Nat.lt_succ_of_le (List.length_filter_le _ _)

/-- The scanning loop of `distinct` computes the first occurrences of
the part of the source that is not already in the yielded table. -/
theorem distinctAux_eq {α : Type u} [DecidableEq α] :
    ∀ (xs seen : List α),
      distinctAux xs seen
        = firstOccurrences (xs.filter fun a => decide (a ∉ seen)) := by
  intro xs
  induction xs with
  | nil =>
    intro seen
    simp [distinctAux, firstOccurrences]
  | cons x rest ih =>
    intro seen
    by_cases hx : x ∈ seen
    · simp [distinctAux, hx, ih]
    · simp only [distinctAux, if_neg hx, List.filter_cons,
        decide_eq_true_eq]
      rw [if_pos (by simp [hx])]
      simp only [firstOccurrences]
      rw [ih (x :: seen)]
      congr 1
      rw [List.filter_filter]
      refine congrArg firstOccurrences (List.filter_congr ?_)
      intro a _
      by_cases h1 : a = x <;> by_cases h2 : a ∈ seen <;> simp [h1, h2]

/-- Claim C9: `distinct` yields exactly the first occurrence of each
distinct value, in order of first occurrence, dropping later duplicates;
consequently its output has the same members as its input and contains
no two equal elements. -/
theorem distinct_spec {α : Type u} [DecidableEq α] (xs : List α) :
    distinct xs = firstOccurrences xs
    ∧ (distinct xs).Nodup
    ∧ ∀ a, a ∈ distinct xs ↔ a ∈ xs := by
  have h1 : distinct xs = firstOccurrences xs := by
    rw [distinct, distinctAux_eq]
    congr 1
    simp
  refine ⟨h1, ?_, ?_⟩
  · rw [h1]
    exact firstOccurrences_nodup xs
  · intro a
    rw [h1]
    exact firstOccurrences_mem xs a

/-! ### `to_lookup` grouping (Claim C7) -/

/-- First occurrences of a list extended on the right: a value already
seen adds nothing, a fresh value is appended at the end. -/
theorem firstOccurrences_append_one {α : Type u} [DecidableEq α] :
    ∀ (l : List α) (a : α),
      firstOccurrences (l ++ [a])
        = if a ∈ l then firstOccurrences l
          else firstOccurrences l ++ [a]
  | [], a => by simp [firstOccurrences]
  | x :: l, a => by
    by_cases hax : a = x
    · subst hax
      simp only [List.cons_append, firstOccurrences, List.filter_append]
      have hfa : [a].filter (fun y => decide (y ≠ a)) = [] := by simp
      simp [hfa]
    · simp only [List.cons_append, firstOccurrences, List.filter_append]
      have hfa : [a].filter (fun y => decide (y ≠ x)) = [a] := by
        simp [hax]
      rw [hfa,
        firstOccurrences_append_one (l.filter fun y => decide (y ≠ x)) a]
      by_cases hal : a ∈ l
      · have hm : a ∈ l.filter (fun y => decide (y ≠ x)) :=
          List.mem_filter.mpr ⟨hal, by simp [hax]⟩
        simp [hm, hal, hax]
      · have hm : a ∉ l.filter (fun y => decide (y ≠ x)) :=
          fun h => hal (List.mem_filter.mp h).1
        simp [hm, hal, hax]
termination_by l _ => l.length
decreasing_by
  all_goals exact Nat.lt_succ_of_le (List.length_filter_le _ _)

/-- Looking a key up after updating (in place) the value sequence stored
at key `k0` by appending `v`: the `k0` entry is seen through the update,
all others are untouched. -/
theorem lookupKey_map_update {κ : Type v} {β : Type w} [DecidableEq κ]
    (v : β) (k0 : κ) :
    ∀ (d : List (κ × List β)) (k : κ),
      lookupKey (d.map fun e => if e.1 = k0 then (e.1, e.2 ++ [v]) else e) k
        = if k = k0 then (lookupKey d k).map (fun l => l ++ [v])
          else lookupKey d k := by
  intro d
  induction d with
  | nil =>
    intro k
    by_cases h : k = k0 <;> simp [lookupKey, h]
  | cons e rest ih =>
    intro k
    have hfst : (if e.1 = k0 then ((e.1 : κ), e.2 ++ [v]) else e).1
        = e.1 := by
      by_cases h : e.1 = k0 <;> simp [h]
    simp only [List.map_cons, lookupKey]
    rw [hfst]
    by_cases hek : e.1 = k
    · by_cases he0 : e.1 = k0
      · have hkk0 : k = k0 := by rw [← hek, he0]
        rw [if_pos hkk0, if_pos hek, if_pos hek, if_pos he0]
        rfl
      · have hkk0 : ¬ k = k0 := fun h => he0 (hek.trans h)
        rw [if_neg hkk0, if_pos hek, if_pos hek, if_neg he0]
    · rw [if_neg hek, ih k]
      by_cases hkk0 : k = k0
      · rw [if_pos hkk0, if_pos hkk0, if_neg hek]
      · rw [if_neg hkk0, if_neg hkk0, if_neg hek]

/-- Looking a key up after appending a fresh entry at the end: an
existing entry wins, otherwise only the appended key answers. -/
theorem lookupKey_append_one {κ : Type v} {γ : Type w} [DecidableEq κ]
    (d : List (κ × γ)) (k0 : κ) (v : γ) (k : κ) :
    lookupKey (d ++ [(k0, v)]) k
      = match lookupKey d k with
        | some w => some w
        | none => if k0 = k then some v else none := by
  induction d with
  | nil => rfl
  | cons e rest ih =>
    simp only [List.cons_append, lookupKey]
    by_cases hek : e.1 = k
    · rw [if_pos hek, if_pos hek]
    · rw [if_neg hek, if_neg hek]
      exact ih

/-- No element of the source has key `k` when `k` is absent from the
mapped keys. -/
theorem filter_key_eq_nil {α : Type u} {κ : Type v} [DecidableEq κ]
    (key : α → κ) (xs : List α) (k : κ) (h : k ∉ xs.map key) :
    xs.filter (fun a => decide (key a = k)) = [] := by
  rw [List.filter_eq_nil_iff]
  intro a ha
  simp only [decide_eq_true_eq]
  intro hk
  exact h (List.mem_map.mpr ⟨a, ha, hk⟩)

/-- The instrumented `to_lookup` loop computes the same map as the plain
loop and applies `key_from_x` and `value_from_x` exactly once per source
element, in source order. -/
theorem to_lookupTrace_eq {α : Type u} {κ : Type v} {β : Type w}
    [DecidableEq κ] (key : α → κ) (val : α → β) :
    ∀ (xs : List α) (d : List (κ × List β)),
      to_lookupTrace key val xs d
        = (xs.foldl (lookupStep key val) d, xs, xs) := by
  intro xs
  induction xs with
  | nil =>
    intro d
    rfl
  | cons x rest ih =>
    intro d
    simp [to_lookupTrace, ih, lookupStep]

/-- The two structural invariants of `to_lookup`: its keys are the first
occurrences of the extracted keys in first-seen order, and each key maps
to the values of exactly its elements, in encounter order. -/
theorem to_lookup_invariant {α : Type u} {κ : Type v} {β : Type w}
    [DecidableEq κ] (key : α → κ) (val : α → β) (xs : List α) :
    (to_lookup xs key val).map Prod.fst = firstOccurrences (xs.map key)
    ∧ ∀ k, lookupKey (to_lookup xs key val) k
        = if k ∈ xs.map key
          then some ((xs.filter fun a => decide (key a = k)).map val)
          else none := by
  induction xs using List.reverseRecOn with
  | nil =>
    constructor
    · simp [to_lookup, firstOccurrences]
    · intro k
      simp [to_lookup, lookupKey]
  | append_singleton xs x ih =>
    obtain ⟨h1, h2⟩ := ih
    have hsnoc : to_lookup (xs ++ [x]) key val
        = lookupStep key val (to_lookup xs key val) x := by
      simp [to_lookup, List.foldl_append]
    have hmemiff : key x ∈ (to_lookup xs key val).map Prod.fst
        ↔ key x ∈ xs.map key := by
      rw [h1]
      exact firstOccurrences_mem _ _
    have hkeys : (xs ++ [x]).map key = xs.map key ++ [key x] := by
      rw [List.map_append, List.map_singleton]
    have hmemext : ∀ k : κ, k ∈ xs.map key → k ∈ (xs ++ [x]).map key := by
      intro k hkk
      rw [hkeys]
      exact List.mem_append_left _ hkk
    have hmemnot : ∀ k : κ, k ∉ xs.map key → ¬ k = key x →
        ¬ k ∈ (xs ++ [x]).map key := by
      intro k hkk hkx hc
      rw [hkeys] at hc
      rcases List.mem_append.mp hc with hc | hc
      · exact hkk hc
      · exact hkx (List.mem_singleton.mp hc)
    by_cases hmem : key x ∈ (to_lookup xs key val).map Prod.fst
    · have hmem' : key x ∈ xs.map key := hmemiff.mp hmem
      have hstep : to_lookup (xs ++ [x]) key val
          = (to_lookup xs key val).map
              (fun e => if e.1 = key x then (e.1, e.2 ++ [val x]) else e) := by
        rw [hsnoc]
        simp only [lookupStep]
        rw [if_pos hmem]
      constructor
      · rw [hstep, List.map_map]
        have hcomp : (Prod.fst ∘ fun e : κ × List β =>
            if e.1 = key x then (e.1, e.2 ++ [val x]) else e) = Prod.fst := by
          funext e
          by_cases h : e.1 = key x <;> simp [h]
        rw [hcomp, h1, hkeys, firstOccurrences_append_one, if_pos hmem']
      · intro k
        rw [hstep, lookupKey_map_update]
        by_cases hk : k = key x
        · subst hk
          rw [if_pos rfl, h2, if_pos hmem', if_pos (hmemext _ hmem')]
          simp [List.filter_append]
        · rw [if_neg hk, h2]
          by_cases hkx : k ∈ xs.map key
          · rw [if_pos hkx, if_pos (hmemext _ hkx)]
            have hxf : [x].filter (fun a => decide (key a = k)) = [] := by
              have hne : ¬ (key x = k) := fun h => hk h.symm
              simp [hne]
            simp [List.filter_append, hxf]
          · rw [if_neg hkx, if_neg (hmemnot _ hkx hk)]
    · have hmem' : key x ∉ xs.map key := fun h => hmem (hmemiff.mpr h)
      have hstep : to_lookup (xs ++ [x]) key val
          = to_lookup xs key val ++ [(key x, [val x])] := by
        rw [hsnoc]
        simp only [lookupStep]
        rw [if_neg hmem]
      constructor
      · simp only [hstep, List.map_append, List.map_singleton]
        rw [h1, firstOccurrences_append_one, if_neg hmem']
      · intro k
        rw [hstep, lookupKey_append_one, h2]
        by_cases hk : k = key x
        · subst hk
          have hmembx : key x ∈ (xs ++ [x]).map key := by
            rw [hkeys]
            exact List.mem_append_right _ (List.mem_singleton.mpr rfl)
          rw [if_neg hmem', if_pos hmembx]
          simp [List.filter_append, filter_key_eq_nil key xs _ hmem']
        · by_cases hkx : k ∈ xs.map key
          · rw [if_pos hkx, if_pos (hmemext _ hkx)]
            have hxf : [x].filter (fun a => decide (key a = k)) = [] := by
              have hne : ¬ (key x = k) := fun h => hk h.symm
              simp [hne]
            simp [List.filter_append, hxf]
          · rw [if_neg hkx, if_neg (hmemnot _ hkx hk)]
            have hne : ¬ (key x = k) := fun h => hk h.symm
            simp [hne]

/-- Claim C7: `to_lookup` never fails on a repeated key: its keys are in
first-seen order, each key holds the values of its elements in encounter
order, the key and value functions are applied exactly once per source
element in source order, and grouping ["ada","awk","bash","bcpl","c"] by
first character yields the 'a'/'b'/'c' groups in order. -/
theorem to_lookup_spec {α : Type u} {κ : Type v} {β : Type w}
    [DecidableEq κ] (key : α → κ) (val : α → β) (xs : List α) :
    (to_lookup xs key val).map Prod.fst = firstOccurrences (xs.map key)
    ∧ (∀ k, lookupKey (to_lookup xs key val) k
        = if k ∈ xs.map key
          then some ((xs.filter fun a => decide (key a = k)).map val)
          else none)
    ∧ to_lookupTrace key val xs [] = (to_lookup xs key val, xs, xs)
    ∧ to_lookup
        [['a','d','a'], ['a','w','k'], ['b','a','s','h'],
         ['b','c','p','l'], ['c']]
        (fun s : List Char => s.headD 'x') (fun s => s)
      = [('a', [['a','d','a'], ['a','w','k']]),
         ('b', [['b','a','s','h'], ['b','c','p','l']]),
         ('c', [['c']])] := by
  obtain ⟨h1, h2⟩ := to_lookup_invariant key val xs
  exact ⟨h1, h2, to_lookupTrace_eq key val xs [], rfl⟩

/-- Witness for claim C7: the call trace over a concrete source. -/
theorem to_lookup_witness :
    to_lookupTrace (fun n : Nat => n % 2) (fun n => n) [1, 2, 3] []
      = (to_lookup [1, 2, 3] (fun n => n % 2) (fun n => n),
         [1, 2, 3], [1, 2, 3]) :=
  (to_lookup_spec (fun n : Nat => n % 2) (fun n => n) [1, 2, 3]).2.2.1

/-! ### `to_dict` duplicate keys (Claim C6) -/

/-- While all keys seen so far are distinct, the `to_dict` loop inserts
one entry per element, in source order. -/
theorem to_dictAux_ok {α : Type u} {κ : Type v} {β : Type w}
    [DecidableEq κ] (key : α → κ) (val : α → β) :
    ∀ (xs : List α) (d : List (κ × β)),
      (d.map Prod.fst ++ xs.map key).Nodup →
      to_dictAux key val xs d
        = .ok (d ++ xs.map fun a => (key a, val a)) := by
  intro xs
  induction xs with
  | nil =>
    intro d _
    simp [to_dictAux]
  | cons x rest ih =>
    intro d h
    have hx : key x ∉ d.map Prod.fst := by
      intro hmem
      rcases List.nodup_append.mp h with ⟨-, -, hdisj⟩
      exact hdisj hmem (by simp)
    simp only [to_dictAux, if_neg hx]
    rw [ih (d ++ [(key x, val x)]) (by
      simpa [List.map_append, List.append_assoc] using h)]
    simp

/-- The `to_dict` loop raises at the first element whose key was already
inserted, and the error state holds exactly the entries inserted before
that element. -/
theorem to_dictAux_dup {α : Type u} {κ : Type v} {β : Type w}
    [DecidableEq κ] (key : α → κ) (val : α → β) (x : α) (bs : List α) :
    ∀ (as : List α) (d : List (κ × β)),
      (d.map Prod.fst ++ as.map key).Nodup →
      key x ∈ d.map Prod.fst ++ as.map key →
      to_dictAux key val (as ++ x :: bs) d
        = .error (key x, x, d ++ as.map fun a => (key a, val a)) := by
  intro as
  induction as with
  | nil =>
    intro d _ hmem
    simp only [List.map_nil, List.append_nil] at hmem
    simp [to_dictAux, hmem]
  | cons a rest ih =>
    intro d h hmem
    have ha : key a ∉ d.map Prod.fst := by
      intro hmema
      rcases List.nodup_append.mp h with ⟨-, -, hdisj⟩
      exact hdisj hmema (by simp)
    simp only [List.cons_append, to_dictAux, if_neg ha]
    change to_dictAux key val (rest ++ x :: bs) (d ++ [(key a, val a)])
      = _
    rw [ih (d ++ [(key a, val a)])
      (by simpa [List.map_append, List.append_assoc] using h)
      (by simpa [List.map_append, List.append_assoc] using hmem)]
    simp

/-- Claim C6: `to_dict` scans once in source order and, when all keys
are distinct, builds one entry per element; on the first element whose
key is already present it fails at exactly that element, with exactly
the entries for the elements before the duplicate inserted; grouping
["ada", "basic", "csp"] by string length fails at "csp" because the
lengths 3, 5, 3 collide, with only the entries for "ada" and "basic"
inserted. -/
theorem to_dict_spec {α : Type u} {κ : Type v} {β : Type w}
    [DecidableEq κ] (key : α → κ) (val : α → β) (xs as bs : List α)
    (x : α) :
    ((xs.map key).Nodup →
      to_dict xs key val = .ok (xs.map fun a => (key a, val a)))
    ∧ ((as.map key).Nodup → key x ∈ as.map key →
        to_dict (as ++ x :: bs) key val
          = .error (key x, x, as.map fun a => (key a, val a)))
    ∧ to_dict [['a','d','a'], ['b','a','s','i','c'], ['c','s','p']]
        (fun s : List Char => s.length) (fun s => s)
        = .error (3, ['c','s','p'],
            [(3, ['a','d','a']), (5, ['b','a','s','i','c'])]) := by
  refine ⟨?_, ?_, ?_⟩
  · intro h
    simpa [to_dict] using to_dictAux_ok key val xs [] (by simpa using h)
  · intro h hm
    simpa [to_dict] using to_dictAux_dup key val x bs as []
      (by simpa using h) (by simpa using hm)
  · rfl

/-- Witness for claim C6: two distinct keys build the full dictionary. -/
theorem to_dict_witness :
    to_dict [(1 : Nat), 2] (fun n => n) (fun n => n * n)
      = .ok [(1, 1), (2, 4)] :=
  (to_dict_spec (fun n : Nat => n) (fun n => n * n) [1, 2] [] [] 0).1
    (by decide)

/-! ### Bounding the unbounded producer (Claim C8) -/

/-- Claim C8: taking `n` elements of the unbounded producer `repeat(x)`
and materializing the result terminates (the embedding of the bounded
pipeline is a total function) and yields exactly `n` copies of `x`. -/
theorem repeat_take_spec {α : Type u} (x : α) (n : Nat) :
    to_tuple (take n (repeatForever x)) = List.replicate n x := by
  induction n with
  | zero => rfl
  | succ m ih => exact congrArg (fun l => x :: l) ih

/-! ### Negative indices (Claim C10) -/

/-- The counting scan of `element_at_or_default` never matches an index
smaller than the running counter, so it falls through to the default. -/
theorem element_at_from_of_lt {α : Type u} (xs : List α) (index : Int)
    (d : α) :
    ∀ i : Int, index < i → element_at_from xs index d i = d := by
  induction xs with
  | nil =>
    intro i _
    rfl
  | cons x rest ih =>
    intro i h
    have hne : ¬ (i = index) := by omega
    simp only [element_at_from, if_neg hne]
    exact ih (i + 1) (by omega)

/-- Claim C10: for every negative index, `element_at_or_default` returns
the default and strict `element_at` raises the out-of-range failure; a
negative index never selects an element from the end of the sequence. -/
theorem element_at_negative_spec {α : Type u} {β : Type v} (xs : List α)
    (i : Int) (d : α) (ys : List β) (h : i < 0) :
    element_at_or_default xs i d = d
    ∧ element_at ys i
        = .error ("Index " ++ toString i ++ " is out of range") := by
  have h1 : element_at_or_default xs i d = d :=
    element_at_from_of_lt xs i d 0 (by omega)
  have h2 : element_at_or_default (ys.map PyVal.elem) i PyVal.marker
      = PyVal.marker :=
    element_at_from_of_lt _ i _ 0 (by omega)
  refine ⟨h1, ?_⟩
  simp [element_at, h2]

/-- Witness for claim C10 at the concrete index `-1`. -/
theorem element_at_negative_witness :
    element_at_or_default [(5 : Nat)] (-1) 9 = 9
    ∧ element_at [(7 : Nat)] (-1)
        = .error ("Index " ++ toString (-1 : Int) ++ " is out of range") :=
  element_at_negative_spec [(5 : Nat)] (-1) 9 [(7 : Nat)] (by decide)

end Llll
